import Mathlib

/-!
Shallow embedding of `pasco/models/transformer/position_encoding.py`.

The file defines two encoder classes, `PositionEmbeddingSine` (dense) and
`PositionEmbeddingSineSparse` (sparse).  Both share the constructor logic
(validation of `scale` versus `normalize`) and the frequency table `dim_t`.
Tensors are modelled as follows: the dense path works on index functions
`ℕ → ℕ → ℕ → ℕ → ℝ` together with explicit shape data, the sparse path works
on lists (one list entry per point / per feature).  Floating point numbers
are modelled by `ℝ`; the float power `temperature ** e` becomes `Real.rpow`.
`torch.stack` of two slices requires the slice shapes to agree, so the
stacking step is fallible and the forward functions return `Option`.
-/

namespace PaSCo

/-- Immutable configuration shared by both encoder classes
(`self.num_pos_feats`, `self.temperature`, `self.normalize`, `self.scale`
after `__init__` has run). -/
structure Config where
  num_pos_feats : ℕ
  temperature : ℝ
  normalize : Bool
  scale : ℝ

/-- `PositionEmbeddingSine.__init__`: raises `ValueError` when a scale is
passed while `normalize` is false, otherwise stores the configuration with
`scale` defaulting to `2 * math.pi`. -/
noncomputable def PositionEmbeddingSine.init (num_pos_feats : ℕ) (temperature : ℝ)
    (normalize : Bool) (scale : Option ℝ) : Except String Config :=
  if scale.isSome ∧ normalize = false then
    Except.error "normalize should be True if scale is passed"
  else
    Except.ok ⟨num_pos_feats, temperature, normalize, scale.getD (2 * Real.pi)⟩

/-- `PositionEmbeddingSineSparse.__init__`: identical validation and defaulting
logic to the dense class. -/
noncomputable def PositionEmbeddingSineSparse.init (num_pos_feats : ℕ) (temperature : ℝ)
    (normalize : Bool) (scale : Option ℝ) : Except String Config :=
  if scale.isSome ∧ normalize = false then
    Except.error "normalize should be True if scale is passed"
  else
    Except.ok ⟨num_pos_feats, temperature, normalize, scale.getD (2 * Real.pi)⟩

/-- The frequency table: `dim_t = arange(F)` followed by
`dim_t = temperature ** (2 * (dim_t // 2) / F)`.  Entry `i` is
`temperature ^ (2 * ⌊i/2⌋ / F)` with a real-valued exponent (`Real.rpow`). -/
noncomputable def dimT (temperature : ℝ) (F : ℕ) (i : ℕ) : ℝ :=
  temperature ^ (((2 * (i / 2) : ℕ) : ℝ) / (F : ℝ))

/-- The slice `t[0::2]` of a list: every other element starting at index 0. -/
def everyOther {α : Type} : List α → List α
  | [] => []
  | [a] => [a]
  | a :: _ :: rest => a :: everyOther rest

theorem everyOther_length {α : Type} : ∀ l : List α,
    (everyOther l).length = (l.length + 1) / 2
  | [] => by simp [everyOther]
  | [_] => by simp [everyOther]
  | _ :: _ :: rest => by
    simp only [everyOther, List.length_cons, everyOther_length rest]
    omega

theorem everyOther_getElem? {α : Type} : ∀ (l : List α) (i : ℕ),
    (everyOther l)[i]? = l[2 * i]?
  | [], i => by simp [everyOther]
  | [a], i => by
    cases i with
    | zero => simp [everyOther]
    | succ n => simp [everyOther]; omega
  | a :: b :: rest, i => by
    cases i with
    | zero => simp [everyOther]
    | succ n =>
      have h2 : 2 * (n + 1) = 2 * n + 1 + 1 := by omega
      simp only [everyOther, h2, List.getElem?_cons_succ]
      exact everyOther_getElem? rest n

/-- `torch.stack((v[0::2].sin(), v[1::2].cos()), dim=d).flatten(d)` applied
along the feature axis of a row: the stack axis is inserted *before* the
per-band axis, so flattening yields the sine block followed by the cosine
block (not an interleave). -/
noncomputable def sinCosRow (row : List ℝ) : List ℝ :=
  (everyOther row).map Real.sin ++ (everyOther row.tail).map Real.cos

/-- `PositionEmbeddingSineSparse.forward`.  `coords` is the N×3 input, one
`(x, y, z)` triple per row; the result is `none` exactly when `torch.stack`
fails because the `0::2` and `1::2` slices of the feature axis have different
lengths. -/
noncomputable def PositionEmbeddingSineSparse.forward (cfg : Config)
    (coords : List (ℝ × ℝ × ℝ)) : Option (List (List ℝ)) :=
  let x_embed : List ℝ := coords.map fun c => c.1
  let y_embed : List ℝ := coords.map fun c => c.2.1
  let z_embed : List ℝ := coords.map fun c => c.2.2
  let x_embed := if cfg.normalize then
    x_embed.map fun c => c / (c + 1e-6) * cfg.scale else x_embed
  let y_embed := if cfg.normalize then
    y_embed.map fun c => c / (c + 1e-6) * cfg.scale else y_embed
  let z_embed := if cfg.normalize then
    z_embed.map fun c => c / (c + 1e-6) * cfg.scale else z_embed
  let dim_t : List ℝ := (List.range cfg.num_pos_feats).map fun i =>
    dimT cfg.temperature cfg.num_pos_feats i
  let pos_x : List (List ℝ) := x_embed.map fun c => dim_t.map fun d => c / d
  let pos_y : List (List ℝ) := y_embed.map fun c => dim_t.map fun d => c / d
  let pos_z : List (List ℝ) := z_embed.map fun c => dim_t.map fun d => c / d
  if (cfg.num_pos_feats + 1) / 2 = cfg.num_pos_feats / 2 then
    let pos_x := pos_x.map sinCosRow
    let pos_y := pos_y.map sinCosRow
    let pos_z := pos_z.map sinCosRow
    some (List.zipWith (fun a bc => a ++ bc) pos_x
      (List.zipWith (fun b c => b ++ c) pos_y pos_z))
  else
    none

/-- The per-coordinate normalization of the sparse path: with `normalize`
set, a coordinate `c` is replaced by `c / (c + 1e-6) * scale`. -/
noncomputable def sparseEmbedVal (cfg : Config) (c : ℝ) : ℝ :=
  if cfg.normalize then c / (c + 1e-6) * cfg.scale else c

/-- One axis of one point after division by the frequency table. -/
noncomputable def axisRow (cfg : Config) (c : ℝ) : List ℝ :=
  (List.range cfg.num_pos_feats).map fun i =>
    sparseEmbedVal cfg c / dimT cfg.temperature cfg.num_pos_feats i

/-- The full output row the sparse encoder produces for one point. -/
noncomputable def sparseRow (cfg : Config) (c : ℝ × ℝ × ℝ) : List ℝ :=
  sinCosRow (axisRow cfg c.1) ++
    (sinCosRow (axisRow cfg c.2.1) ++ sinCosRow (axisRow cfg c.2.2))

theorem zipWith_map_same {α β γ δ : Type} (f : β → γ → δ) (g : α → β)
    (h : α → γ) : ∀ l : List α,
    List.zipWith f (l.map g) (l.map h) = l.map fun x => f (g x) (h x)
  | [] => rfl
  | a :: rest => by simp [zipWith_map_same f g h rest]

/-- Characterization: the sparse forward is, when the stack succeeds, a map
of a per-row function over the coordinate list. -/
theorem sparseForward_eq (cfg : Config) (coords : List (ℝ × ℝ × ℝ)) :
    PositionEmbeddingSineSparse.forward cfg coords =
      if (cfg.num_pos_feats + 1) / 2 = cfg.num_pos_feats / 2 then
        some (coords.map (sparseRow cfg))
      else none := by
  unfold PositionEmbeddingSineSparse.forward
  cases hn : cfg.normalize
  all_goals
    simp only [hn, Bool.false_eq_true, if_true, if_false, List.map_map,
      zipWith_map_same, Function.comp_def]
  all_goals split
  case isFalse => rfl
  case isFalse => rfl
  all_goals
    exact congrArg some (List.map_congr_left fun c _ => by
      simp [sparseRow, axisRow, sparseEmbedVal, hn, List.map_map,
        Function.comp_def])

theorem sinCosRow_length (l : List ℝ) : (sinCosRow l).length = l.length := by
  cases l with
  | nil => rfl
  | cons a rest =>
    simp only [sinCosRow, List.length_append, List.length_map,
      everyOther_length, List.tail_cons, List.length_cons]
    omega

theorem axisRow_length (cfg : Config) (c : ℝ) :
    (axisRow cfg c).length = cfg.num_pos_feats := by
  simp [axisRow]

theorem axisRow_getElem? (cfg : Config) (c : ℝ) (i : ℕ)
    (hi : i < cfg.num_pos_feats) :
    (axisRow cfg c)[i]? =
      some (sparseEmbedVal cfg c / dimT cfg.temperature cfg.num_pos_feats i) := by
  simp [axisRow, List.getElem?_map, List.getElem?_range hi]

theorem sinCosRow_getElem?_sin (l : List ℝ) (i : ℕ)
    (hi : i < (l.length + 1) / 2) :
    (sinCosRow l)[i]? = (l[2 * i]?).map Real.sin := by
  have hlen : i < ((everyOther l).map Real.sin).length := by
    simp [everyOther_length]; omega
  simp only [sinCosRow, List.getElem?_append, if_pos hlen,
    List.getElem?_map, everyOther_getElem?]

theorem sinCosRow_getElem?_cos (l : List ℝ) (i : ℕ)
    (hi : (l.length + 1) / 2 ≤ i) :
    (sinCosRow l)[i]? =
      (l[2 * (i - (l.length + 1) / 2) + 1]?).map Real.cos := by
  have hlen : ((everyOther l).map Real.sin).length ≤ i := by
    simp [everyOther_length]; omega
  rw [sinCosRow, List.getElem?_append_right hlen]
  simp only [List.length_map, everyOther_length, List.getElem?_map,
    everyOther_getElem?, List.getElem?_tail]

theorem sparseRow_length (cfg : Config) (c : ℝ × ℝ × ℝ) :
    (sparseRow cfg c).length = 3 * cfg.num_pos_feats := by
  simp only [sparseRow, List.length_append, sinCosRow_length, axisRow_length]
  omega

/-- Entry `i` of the output row for a point, in the per-axis block layout:
within each axis block the first `F/2` entries are sines of the even
frequency bands and the remaining `F/2` entries are cosines of the odd
bands. -/
theorem sparseRow_getElem? (cfg : Config) (c : ℝ × ℝ × ℝ) (i : ℕ)
    (hE : cfg.num_pos_feats % 2 = 0) (hi : i < 3 * cfg.num_pos_feats) :
    (sparseRow cfg c)[i]? =
      some
        (let F := cfg.num_pos_feats
         let v := sparseEmbedVal cfg
            (if i < F then c.1 else if i < 2 * F then c.2.1 else c.2.2)
         let j := if i < F then i else if i < 2 * F then i - F else i - 2 * F
         if j < F / 2 then
           Real.sin (v / dimT cfg.temperature F (2 * j))
         else
           Real.cos (v / dimT cfg.temperature F (2 * (j - F / 2) + 1))) := by
  have key : ∀ (x : ℝ) (j : ℕ), j < cfg.num_pos_feats →
      (sinCosRow (axisRow cfg x))[j]? =
        some (if j < cfg.num_pos_feats / 2 then
            Real.sin (sparseEmbedVal cfg x /
              dimT cfg.temperature cfg.num_pos_feats (2 * j))
          else
            Real.cos (sparseEmbedVal cfg x /
              dimT cfg.temperature cfg.num_pos_feats
                (2 * (j - cfg.num_pos_feats / 2) + 1))) := by
    intro x j hj
    by_cases hhalf : j < cfg.num_pos_feats / 2
    · rw [sinCosRow_getElem?_sin _ j (by rw [axisRow_length]; omega)]
      rw [axisRow_getElem? cfg x (2 * j) (by omega)]
      simp [hhalf]
    · rw [sinCosRow_getElem?_cos _ j (by rw [axisRow_length]; omega)]
      rw [axisRow_length]
      rw [axisRow_getElem? cfg x _ (by omega)]
      have : (cfg.num_pos_feats + 1) / 2 = cfg.num_pos_feats / 2 := by omega
      simp [hhalf, this]
  by_cases h1 : i < cfg.num_pos_feats
  · rw [sparseRow, List.getElem?_append,
      if_pos (by rw [sinCosRow_length, axisRow_length]; exact h1)]
    rw [key c.1 i h1]
    simp [h1]
  · by_cases h2 : i < 2 * cfg.num_pos_feats
    · rw [sparseRow, List.getElem?_append_right
        (by rw [sinCosRow_length, axisRow_length]; omega),
        sinCosRow_length, axisRow_length, List.getElem?_append,
        if_pos (by rw [sinCosRow_length, axisRow_length]; omega)]
      rw [key c.2.1 (i - cfg.num_pos_feats) (by omega)]
      simp [h1, h2]
    · rw [sparseRow, List.getElem?_append_right
        (by rw [sinCosRow_length, axisRow_length]; omega),
        sinCosRow_length, axisRow_length, List.getElem?_append_right
        (by rw [sinCosRow_length, axisRow_length]; omega),
        sinCosRow_length, axisRow_length]
      have harith : i - cfg.num_pos_feats - cfg.num_pos_feats =
          i - 2 * cfg.num_pos_feats := by omega
      rw [harith, key c.2.2 (i - 2 * cfg.num_pos_feats) (by omega)]
      simp [h1, h2]

/-- A boolean voxel mask indexed by (batch, x, y, z), the shape of
`mask` in the dense forward. -/
def Mask4 : Type := ℕ → ℕ → ℕ → ℕ → Bool

/-- Casting a boolean to a float, as `cumsum(dtype=torch.float)` does on a
boolean tensor. -/
noncomputable def boolToR (v : Bool) : ℝ := if v then 1 else 0

/-- `not_mask = ~mask`. -/
def notMask (mask : Mask4) : Mask4 := fun b i j k => !(mask b i j k)

/-- `x_embed = not_mask.cumsum(1, dtype=torch.float)`: the inclusive
cumulative sum of the occupancy indicator along the X axis. -/
noncomputable def PositionEmbeddingSine.x_embed (mask : Mask4)
    (b i j k : ℕ) : ℝ :=
  ∑ m ∈ Finset.range (i + 1), boolToR (notMask mask b m j k)

/-- `y_embed = not_mask.cumsum(2, dtype=torch.float)`. -/
noncomputable def PositionEmbeddingSine.y_embed (mask : Mask4)
    (b i j k : ℕ) : ℝ :=
  ∑ m ∈ Finset.range (j + 1), boolToR (notMask mask b i m k)

/-- `z_embed = not_mask.cumsum(3, dtype=torch.float)`. -/
noncomputable def PositionEmbeddingSine.z_embed (mask : Mask4)
    (b i j k : ℕ) : ℝ :=
  ∑ m ∈ Finset.range (k + 1), boolToR (notMask mask b i j m)

/-- `x_embed / (x_embed[:, -1:, :, :] + eps) * scale`: the normalize branch
of the dense forward for the X axis; the `-1` slice is index `X - 1`. -/
noncomputable def PositionEmbeddingSine.x_embedNorm (cfg : Config) (X : ℕ)
    (mask : Mask4) (b i j k : ℕ) : ℝ :=
  PositionEmbeddingSine.x_embed mask b i j k /
    (PositionEmbeddingSine.x_embed mask b (X - 1) j k + 1e-6) * cfg.scale

/-- `y_embed / (y_embed[:, :, -1:, :] + eps) * scale`. -/
noncomputable def PositionEmbeddingSine.y_embedNorm (cfg : Config) (Y : ℕ)
    (mask : Mask4) (b i j k : ℕ) : ℝ :=
  PositionEmbeddingSine.y_embed mask b i j k /
    (PositionEmbeddingSine.y_embed mask b i (Y - 1) k + 1e-6) * cfg.scale

/-- `z_embed / (z_embed[:, :, :, -1:] + eps) * scale`. -/
noncomputable def PositionEmbeddingSine.z_embedNorm (cfg : Config) (Z : ℕ)
    (mask : Mask4) (b i j k : ℕ) : ℝ :=
  PositionEmbeddingSine.z_embed mask b i j k /
    (PositionEmbeddingSine.z_embed mask b i j (Z - 1) + 1e-6) * cfg.scale

/-- The dense output: its `torch` shape and an index function
(batch, channel, x, y, z) ↦ value. -/
structure DenseOut where
  shape : List ℕ
  data : ℕ → ℕ → ℕ → ℕ → ℕ → ℝ

/-- The default mask built when `mask is None`: `torch.zeros(..., dtype=bool)`,
i.e. nothing is padding. -/
def denseDefaultMask : Mask4 := fun _ _ _ _ => false

/-- `PositionEmbeddingSine.forward`.  The input tensor `x` enters only
through its shape `(B, C, X, Y, Z)` (its values are never read), so the
embedding takes the five sizes and the optional mask.  A missing mask
defaults to all-false.  The result is `none` exactly when the
`torch.stack` of the two frequency-band slices fails. -/
noncomputable def PositionEmbeddingSine.forward (cfg : Config)
    (B _C X Y Z : ℕ) (maskOpt : Option Mask4) : Option DenseOut :=
  let mask := maskOpt.getD denseDefaultMask
  let x_e := PositionEmbeddingSine.x_embed mask
  let y_e := PositionEmbeddingSine.y_embed mask
  let z_e := PositionEmbeddingSine.z_embed mask
  let x_e := if cfg.normalize then PositionEmbeddingSine.x_embedNorm cfg X mask
    else x_e
  let y_e := if cfg.normalize then PositionEmbeddingSine.y_embedNorm cfg Y mask
    else y_e
  let z_e := if cfg.normalize then PositionEmbeddingSine.z_embedNorm cfg Z mask
    else z_e
  let pos_x := fun b i j k f =>
    x_e b i j k / dimT cfg.temperature cfg.num_pos_feats f
  let pos_y := fun b i j k f =>
    y_e b i j k / dimT cfg.temperature cfg.num_pos_feats f
  let pos_z := fun b i j k f =>
    z_e b i j k / dimT cfg.temperature cfg.num_pos_feats f
  if (cfg.num_pos_feats + 1) / 2 = cfg.num_pos_feats / 2 then
    let K := cfg.num_pos_feats / 2
    let sc := fun (v : ℕ → ℕ → ℕ → ℕ → ℕ → ℝ) b i j k f =>
      if f < K then Real.sin (v b i j k (2 * f))
      else Real.cos (v b i j k (2 * (f - K) + 1))
    let L := 2 * K
    let cat := fun b i j k f =>
      if f < L then sc pos_x b i j k f
      else if f < L + L then sc pos_y b i j k (f - L)
      else sc pos_z b i j k (f - (L + L))
    some ⟨[B, L + L + L, X, Y, Z], fun b c i j k => cat b i j k c⟩
  else
    none

/-- The X-axis coordinate volume actually fed to the frequency division:
the cumulative sum, normalized when `cfg.normalize` is set. -/
noncomputable def denseEmbedX (cfg : Config) (X : ℕ) (mask : Mask4) :
    ℕ → ℕ → ℕ → ℕ → ℝ :=
  if cfg.normalize then PositionEmbeddingSine.x_embedNorm cfg X mask
  else PositionEmbeddingSine.x_embed mask

/-- The Y-axis coordinate volume actually fed to the frequency division. -/
noncomputable def denseEmbedY (cfg : Config) (Y : ℕ) (mask : Mask4) :
    ℕ → ℕ → ℕ → ℕ → ℝ :=
  if cfg.normalize then PositionEmbeddingSine.y_embedNorm cfg Y mask
  else PositionEmbeddingSine.y_embed mask

/-- The Z-axis coordinate volume actually fed to the frequency division. -/
noncomputable def denseEmbedZ (cfg : Config) (Z : ℕ) (mask : Mask4) :
    ℕ → ℕ → ℕ → ℕ → ℝ :=
  if cfg.normalize then PositionEmbeddingSine.z_embedNorm cfg Z mask
  else PositionEmbeddingSine.z_embed mask

/-- One per-axis feature after the stack/flatten step: feature `f` is the
sine of band `2*f` for `f < F/2` and the cosine of band `2*(f - F/2) + 1`
otherwise (the sine block followed by the cosine block). -/
noncomputable def denseAxisFeature (cfg : Config) (e : ℝ) (f : ℕ) : ℝ :=
  if f < cfg.num_pos_feats / 2 then
    Real.sin (e / dimT cfg.temperature cfg.num_pos_feats (2 * f))
  else
    Real.cos (e / dimT cfg.temperature cfg.num_pos_feats
      (2 * (f - cfg.num_pos_feats / 2) + 1))

/-- Characterization of the dense forward for an even number of bands:
the output shape is `(B, 3F, X, Y, Z)` and the value at channel `ch` is the
X-, Y- or Z-axis feature according to the block `ch` falls into. -/
theorem denseForward_eq (cfg : Config) (B C X Y Z : ℕ)
    (maskOpt : Option Mask4) (hE : cfg.num_pos_feats % 2 = 0) :
    PositionEmbeddingSine.forward cfg B C X Y Z maskOpt =
      some ⟨[B, 3 * cfg.num_pos_feats, X, Y, Z],
        fun b ch i j k =>
          let mask := maskOpt.getD denseDefaultMask
          if ch < cfg.num_pos_feats then
            denseAxisFeature cfg (denseEmbedX cfg X mask b i j k) ch
          else if ch < 2 * cfg.num_pos_feats then
            denseAxisFeature cfg (denseEmbedY cfg Y mask b i j k)
              (ch - cfg.num_pos_feats)
          else
            denseAxisFeature cfg (denseEmbedZ cfg Z mask b i j k)
              (ch - 2 * cfg.num_pos_feats)⟩ := by
  unfold PositionEmbeddingSine.forward
  rw [if_pos (by omega : (cfg.num_pos_feats + 1) / 2 = cfg.num_pos_feats / 2)]
  have hL : 2 * (cfg.num_pos_feats / 2) = cfg.num_pos_feats := by omega
  refine congrArg some ?_
  rw [DenseOut.mk.injEq]
  constructor
  · rw [show 2 * (cfg.num_pos_feats / 2) + 2 * (cfg.num_pos_feats / 2) +
        2 * (cfg.num_pos_feats / 2) = 3 * cfg.num_pos_feats from by omega]
  · funext b ch i j k
    simp only [hL, denseAxisFeature, denseEmbedX, denseEmbedY, denseEmbedZ,
      show cfg.num_pos_feats + cfg.num_pos_feats = 2 * cfg.num_pos_feats
        from by omega]

theorem boolToR_nonneg (v : Bool) : 0 ≤ boolToR v := by
  cases v <;> simp [boolToR]

/-- C3: for every choice of the other parameters, constructing either
encoder with a non-None scale while `normalize` is false fails with the
`ValueError` at construction time; constructing with `normalize` true and
any scale, or with scale omitted, succeeds (and a missing scale defaults
to `2π`). -/
theorem claim3_scale_validation :
    ∀ (F : ℕ) (T : ℝ) (s : ℝ),
      (PositionEmbeddingSine.init F T false (some s) =
          Except.error "normalize should be True if scale is passed" ∧
        PositionEmbeddingSineSparse.init F T false (some s) =
          Except.error "normalize should be True if scale is passed") ∧
      (∀ sc : Option ℝ,
        PositionEmbeddingSine.init F T true sc =
          Except.ok ⟨F, T, true, sc.getD (2 * Real.pi)⟩ ∧
        PositionEmbeddingSineSparse.init F T true sc =
          Except.ok ⟨F, T, true, sc.getD (2 * Real.pi)⟩) ∧
      (∀ nm : Bool,
        PositionEmbeddingSine.init F T nm none =
          Except.ok ⟨F, T, nm, 2 * Real.pi⟩ ∧
        PositionEmbeddingSineSparse.init F T nm none =
          Except.ok ⟨F, T, nm, 2 * Real.pi⟩) := by
  intro F T s
  refine ⟨⟨?_, ?_⟩, fun sc => ⟨?_, ?_⟩, fun nm => ⟨?_, ?_⟩⟩ <;>
    simp [PositionEmbeddingSine.init, PositionEmbeddingSineSparse.init]

/-- C4 counterexample: with `temperature = 1/2` (and `num_pos_feats = 4`)
the frequency table is *decreasing*: `dim_t[2] < dim_t[0]`, refuting
"`dim_t` is non-decreasing for every temperature". -/
theorem claim4_counterexample : dimT (1 / 2) 4 2 < dimT (1 / 2) 4 0 := by
  have h0 : dimT (1 / 2) 4 0 = 1 := by
    unfold dimT
    norm_num
  have h2 : dimT (1 / 2) 4 2 < 1 := by
    unfold dimT
    have he : ((2 * (2 / 2) : ℕ) : ℝ) / ((4 : ℕ) : ℝ) = 1 / 2 := by norm_num
    rw [he]
    exact Real.rpow_lt_one (by norm_num) (by norm_num) (by norm_num)
  rw [h0]
  exact h2

/-- C4 amended: for every `num_pos_feats` and every temperature `≥ 1`,
`dim_t[i] = temperature^(2*(i//2)/num_pos_feats)`, every entry is positive,
and the table is non-decreasing in the index. -/
theorem claim4_amended (F : ℕ) (T : ℝ) (hT : 1 ≤ T) :
    (∀ i, dimT T F i = T ^ (((2 * (i / 2) : ℕ) : ℝ) / (F : ℝ))) ∧
    (∀ i, 0 < dimT T F i) ∧
    (∀ i j, i ≤ j → dimT T F i ≤ dimT T F j) := by
  refine ⟨fun i => rfl, fun i => Real.rpow_pos_of_pos (by linarith) _,
    fun i j hij => ?_⟩
  apply Real.rpow_le_rpow_of_exponent_le hT
  have hnum : ((2 * (i / 2) : ℕ) : ℝ) ≤ ((2 * (j / 2) : ℕ) : ℝ) := by
    have h : 2 * (i / 2) ≤ 2 * (j / 2) := by omega
    exact_mod_cast h
  exact div_le_div_of_nonneg_right hnum (Nat.cast_nonneg F)

theorem claim4_witness :
    (1 : ℝ) ≤ 10000 ∧ 0 < dimT 10000 64 5 :=
  ⟨by norm_num, (claim4_amended 64 10000 (by norm_num)).2.1 5⟩

/-- C6: the dense coordinate volumes are the inclusive cumulative sums of
the occupancy indicator `¬mask` along X, Y, Z (stated through their
defining recurrences), the no-mask volumes are the 1-based ranks
`i+1`, `j+1`, `k+1`, and on a `1×C×2×1×1` input without mask the
cumulative occupancy is exactly `1` at the first voxel, `2` at the second
voxel of the length-2 axis, and `1` along each length-1 axis. -/
theorem claim6_cumsum :
    (∀ (mask : Mask4) (b i j k : ℕ),
      PositionEmbeddingSine.x_embed mask b 0 j k =
        boolToR (!mask b 0 j k) ∧
      PositionEmbeddingSine.x_embed mask b (i + 1) j k =
        PositionEmbeddingSine.x_embed mask b i j k +
          boolToR (!mask b (i + 1) j k) ∧
      PositionEmbeddingSine.y_embed mask b i 0 k =
        boolToR (!mask b i 0 k) ∧
      PositionEmbeddingSine.y_embed mask b i (j + 1) k =
        PositionEmbeddingSine.y_embed mask b i j k +
          boolToR (!mask b i (j + 1) k) ∧
      PositionEmbeddingSine.z_embed mask b i j 0 =
        boolToR (!mask b i j 0) ∧
      PositionEmbeddingSine.z_embed mask b i j (k + 1) =
        PositionEmbeddingSine.z_embed mask b i j k +
          boolToR (!mask b i j (k + 1))) ∧
    (∀ b i j k,
      PositionEmbeddingSine.x_embed denseDefaultMask b i j k = (i + 1 : ℝ) ∧
      PositionEmbeddingSine.y_embed denseDefaultMask b i j k = (j + 1 : ℝ) ∧
      PositionEmbeddingSine.z_embed denseDefaultMask b i j k = (k + 1 : ℝ)) ∧
    (PositionEmbeddingSine.x_embed denseDefaultMask 0 0 0 0 = 1 ∧
      PositionEmbeddingSine.x_embed denseDefaultMask 0 1 0 0 = 2 ∧
      PositionEmbeddingSine.y_embed denseDefaultMask 0 0 0 0 = 1 ∧
      PositionEmbeddingSine.y_embed denseDefaultMask 0 1 0 0 = 1 ∧
      PositionEmbeddingSine.z_embed denseDefaultMask 0 0 0 0 = 1 ∧
      PositionEmbeddingSine.z_embed denseDefaultMask 0 1 0 0 = 1) := by
  have hx : ∀ b i j k,
      PositionEmbeddingSine.x_embed denseDefaultMask b i j k = (i + 1 : ℝ) := by
    intro b i j k
    simp [PositionEmbeddingSine.x_embed, notMask, denseDefaultMask, boolToR]
  have hy : ∀ b i j k,
      PositionEmbeddingSine.y_embed denseDefaultMask b i j k = (j + 1 : ℝ) := by
    intro b i j k
    simp [PositionEmbeddingSine.y_embed, notMask, denseDefaultMask, boolToR]
  have hz : ∀ b i j k,
      PositionEmbeddingSine.z_embed denseDefaultMask b i j k = (k + 1 : ℝ) := by
    intro b i j k
    simp [PositionEmbeddingSine.z_embed, notMask, denseDefaultMask, boolToR]
  refine ⟨fun mask b i j k => ?_, fun b i j k => ⟨hx b i j k, hy b i j k,
    hz b i j k⟩, ?_⟩
  · refine ⟨?_, ?_, ?_, ?_, ?_, ?_⟩ <;>
      simp [PositionEmbeddingSine.x_embed, PositionEmbeddingSine.y_embed,
        PositionEmbeddingSine.z_embed, notMask, Finset.sum_range_succ]
  · refine ⟨?_, ?_, ?_, ?_, ?_, ?_⟩ <;> norm_num [hx, hy, hz]

/-- C10: with an odd number of frequency bands, both forwards fail at the
`torch.stack` step (model: return `none`) on every input, because the
`0::2` slice of the feature axis has `(F+1)/2` entries while the `1::2`
slice has `(F-1)/2`, which differ. -/
theorem claim10_odd_fails (cfg : Config) (hO : Odd cfg.num_pos_feats) :
    (∀ coords, PositionEmbeddingSineSparse.forward cfg coords = none) ∧
    (∀ B C X Y Z maskOpt,
      PositionEmbeddingSine.forward cfg B C X Y Z maskOpt = none) ∧
    (∀ l : List ℝ, l.length = cfg.num_pos_feats →
      (everyOther l).length = (cfg.num_pos_feats + 1) / 2 ∧
      (everyOther l.tail).length = (cfg.num_pos_feats - 1) / 2 ∧
      (cfg.num_pos_feats + 1) / 2 ≠ (cfg.num_pos_feats - 1) / 2) := by
  rw [Nat.odd_iff] at hO
  have hguard : ¬((cfg.num_pos_feats + 1) / 2 = cfg.num_pos_feats / 2) := by
    omega
  refine ⟨fun coords => ?_, fun B C X Y Z m => ?_, fun l hl => ?_⟩
  · rw [sparseForward_eq, if_neg hguard]
  · unfold PositionEmbeddingSine.forward
    rw [if_neg hguard]
  · refine ⟨by rw [everyOther_length, hl], ?_, by omega⟩
    rw [everyOther_length, List.length_tail, hl]
    omega

theorem claim10_witness :
    PositionEmbeddingSineSparse.forward ⟨3, 10000, false, 2 * Real.pi⟩
        [(1, 2, 3)] = none ∧
      PositionEmbeddingSine.forward ⟨3, 10000, false, 2 * Real.pi⟩
        1 1 1 1 1 none = none :=
  ⟨(claim10_odd_fails ⟨3, 10000, false, 2 * Real.pi⟩ ⟨1, by norm_num⟩).1 _,
    (claim10_odd_fails ⟨3, 10000, false, 2 * Real.pi⟩ ⟨1, by norm_num⟩).2.1
      1 1 1 1 1 none⟩

/-- C9: for every coordinate list (any length, any order, duplicates
allowed) the sparse output, when the stack succeeds (even band count), has
one row per input point and `3*num_pos_feats` columns in every row; in
particular the empty input yields `0` rows of width `3*num_pos_feats`. -/
theorem claim9_sparse_shape (cfg : Config) (coords : List (ℝ × ℝ × ℝ))
    (hE : cfg.num_pos_feats % 2 = 0) :
    ∃ out, PositionEmbeddingSineSparse.forward cfg coords = some out ∧
      out.length = coords.length ∧
      ∀ r ∈ out, r.length = 3 * cfg.num_pos_feats := by
  refine ⟨coords.map (sparseRow cfg), ?_, by simp, ?_⟩
  · rw [sparseForward_eq,
      if_pos (by omega : (cfg.num_pos_feats + 1) / 2 = cfg.num_pos_feats / 2)]
  · intro r hr
    obtain ⟨c, _, rfl⟩ := List.mem_map.mp hr
    exact sparseRow_length cfg c

theorem claim9_witness :
    (2 : ℕ) % 2 = 0 ∧
      ∃ out, PositionEmbeddingSineSparse.forward
          ⟨2, 10000, false, 2 * Real.pi⟩ ([] : List (ℝ × ℝ × ℝ)) = some out ∧
        out.length = ([] : List (ℝ × ℝ × ℝ)).length ∧
        ∀ r ∈ out, r.length = 3 * (2 : ℕ) :=
  ⟨rfl, claim9_sparse_shape ⟨2, 10000, false, 2 * Real.pi⟩ [] rfl⟩

/-- C7: sparse output row `i` depends only on input row `i` and the fixed
configuration: if two coordinate lists agree at index `i` (as `getElem?`),
the forwards agree at output index `i` — in particular dropping, adding or
permuting other rows leaves row `i`'s encoding unchanged. -/
theorem claim7_row_independence (cfg : Config)
    (coords₁ coords₂ : List (ℝ × ℝ × ℝ)) (i : ℕ)
    (h : coords₁[i]? = coords₂[i]?) :
    (PositionEmbeddingSineSparse.forward cfg coords₁).map (fun o => o[i]?) =
      (PositionEmbeddingSineSparse.forward cfg coords₂).map
        (fun o => o[i]?) := by
  rw [sparseForward_eq, sparseForward_eq]
  split
  · simp [List.getElem?_map, h]
  · rfl

theorem claim7_witness :
    (PositionEmbeddingSineSparse.forward ⟨64, 10000, false, 2 * Real.pi⟩
        [(1, 2, 3), (4, 5, 6)]).map (fun o => o[0]?) =
      (PositionEmbeddingSineSparse.forward ⟨64, 10000, false, 2 * Real.pi⟩
        [(1, 2, 3)]).map (fun o => o[0]?) :=
  claim7_row_independence ⟨64, 10000, false, 2 * Real.pi⟩
    [(1, 2, 3), (4, 5, 6)] [(1, 2, 3)] 0 rfl

/-- C8: for every input shape `(B, C, X, Y, Z)` and every mask (or none),
the dense output exists (even band count), its shape is
`(B, 3*num_pos_feats, X, Y, Z)`, and its value at channel `ch` is the X-,
Y- or Z-axis per-axis feature according to the block `ch` falls into —
i.e. the three per-axis encodings are concatenated in X, Y, Z order along
the feature axis, which is then moved to the channel position. -/
theorem claim8_dense_shape (cfg : Config) (B C X Y Z : ℕ)
    (maskOpt : Option Mask4) (hE : cfg.num_pos_feats % 2 = 0) :
    ∃ out, PositionEmbeddingSine.forward cfg B C X Y Z maskOpt = some out ∧
      out.shape = [B, 3 * cfg.num_pos_feats, X, Y, Z] ∧
      ∀ b ch i j k,
        out.data b ch i j k =
          (if ch < cfg.num_pos_feats then
            denseAxisFeature cfg
              (denseEmbedX cfg X (maskOpt.getD denseDefaultMask) b i j k) ch
          else if ch < 2 * cfg.num_pos_feats then
            denseAxisFeature cfg
              (denseEmbedY cfg Y (maskOpt.getD denseDefaultMask) b i j k)
              (ch - cfg.num_pos_feats)
          else
            denseAxisFeature cfg
              (denseEmbedZ cfg Z (maskOpt.getD denseDefaultMask) b i j k)
              (ch - 2 * cfg.num_pos_feats)) := by
  rw [denseForward_eq cfg B C X Y Z maskOpt hE]
  exact ⟨_, rfl, rfl, fun b ch i j k => rfl⟩

theorem claim8_witness :
    (2 : ℕ) % 2 = 0 ∧
      ∃ out, PositionEmbeddingSine.forward ⟨2, 10000, false, 2 * Real.pi⟩
          1 5 4 4 4 none = some out ∧
        out.shape = [1, 3 * (2 : ℕ), 4, 4, 4] ∧
        ∀ b ch i j k,
          out.data b ch i j k =
            (if ch < (2 : ℕ) then
              denseAxisFeature ⟨2, 10000, false, 2 * Real.pi⟩
                (denseEmbedX ⟨2, 10000, false, 2 * Real.pi⟩ 4
                  denseDefaultMask b i j k) ch
            else if ch < 2 * (2 : ℕ) then
              denseAxisFeature ⟨2, 10000, false, 2 * Real.pi⟩
                (denseEmbedY ⟨2, 10000, false, 2 * Real.pi⟩ 4
                  denseDefaultMask b i j k) (ch - 2)
            else
              denseAxisFeature ⟨2, 10000, false, 2 * Real.pi⟩
                (denseEmbedZ ⟨2, 10000, false, 2 * Real.pi⟩ 4
                  denseDefaultMask b i j k) (ch - 2 * 2)) :=
  ⟨rfl, claim8_dense_shape ⟨2, 10000, false, 2 * Real.pi⟩ 1 5 4 4 4 none rfl⟩

/-- C1 counterexample: the outputs are *not* interleaved
sin/cos-by-index-parity.  With `num_pos_feats = 4`, `normalize = False` and
the single point `(0,0,0)`, the claim predicts output feature 1 to be
`cos(0 / dim_t[1]) = 1`, but the code produces `sin(0 / dim_t[2]) = 0`
there (the sine block of even bands comes first, then the cosine block). -/
theorem claim1_counterexample :
    ((PositionEmbeddingSineSparse.forward ⟨4, 10000, false, 2 * Real.pi⟩
          [(0, 0, 0)]).bind fun o => (o[0]?).bind fun r => r[1]?) ≠
      some (Real.cos (0 / dimT 10000 4 1)) := by
  have h := sparseRow_getElem? ⟨4, 10000, false, 2 * Real.pi⟩ (0, 0, 0) 1
    (by norm_num) (by norm_num)
  rw [sparseForward_eq, if_pos (by norm_num : (4 + 1) / 2 = 4 / 2)]
  simp only [Option.some_bind, List.getElem?_map, List.getElem?_cons_zero,
    Option.map_some']
  rw [h]
  norm_num [sparseEmbedVal, zero_div, Real.sin_zero, Real.cos_zero]

/-- C1 amended: for both encoders (with an even band count and `normalize`
off), each per-axis block of `num_pos_feats` output features consists of
the sines of the even-indexed bands followed by the cosines of the
odd-indexed bands: feature `i` of an axis block is `sin(c / dim_t[2*i])`
for `i < F/2` and `cos(c / dim_t[2*(i - F/2) + 1])` for `F/2 ≤ i < F` —
a block layout, not an interleave. -/
theorem claim1_amended (cfg : Config) (hn : cfg.normalize = false)
    (hE : cfg.num_pos_feats % 2 = 0) :
    (∀ (coords : List (ℝ × ℝ × ℝ)) (n : ℕ) (c : ℝ × ℝ × ℝ),
      coords[n]? = some c →
      ∃ out, PositionEmbeddingSineSparse.forward cfg coords = some out ∧
        ∀ i, i < cfg.num_pos_feats →
          ((out[n]?).bind fun r => r[i]?) =
            some (if i < cfg.num_pos_feats / 2 then
              Real.sin (c.1 / dimT cfg.temperature cfg.num_pos_feats (2 * i))
            else
              Real.cos (c.1 / dimT cfg.temperature cfg.num_pos_feats
                (2 * (i - cfg.num_pos_feats / 2) + 1))) ∧
          ((out[n]?).bind fun r => r[cfg.num_pos_feats + i]?) =
            some (if i < cfg.num_pos_feats / 2 then
              Real.sin (c.2.1 / dimT cfg.temperature cfg.num_pos_feats (2 * i))
            else
              Real.cos (c.2.1 / dimT cfg.temperature cfg.num_pos_feats
                (2 * (i - cfg.num_pos_feats / 2) + 1))) ∧
          ((out[n]?).bind fun r => r[2 * cfg.num_pos_feats + i]?) =
            some (if i < cfg.num_pos_feats / 2 then
              Real.sin (c.2.2 / dimT cfg.temperature cfg.num_pos_feats (2 * i))
            else
              Real.cos (c.2.2 / dimT cfg.temperature cfg.num_pos_feats
                (2 * (i - cfg.num_pos_feats / 2) + 1)))) ∧
    (∀ (B C X Y Z : ℕ) (maskOpt : Option Mask4),
      ∃ out, PositionEmbeddingSine.forward cfg B C X Y Z maskOpt = some out ∧
        ∀ b p q r i, i < cfg.num_pos_feats →
          out.data b i p q r =
            (if i < cfg.num_pos_feats / 2 then
              Real.sin (PositionEmbeddingSine.x_embed
                  (maskOpt.getD denseDefaultMask) b p q r /
                dimT cfg.temperature cfg.num_pos_feats (2 * i))
            else
              Real.cos (PositionEmbeddingSine.x_embed
                  (maskOpt.getD denseDefaultMask) b p q r /
                dimT cfg.temperature cfg.num_pos_feats
                  (2 * (i - cfg.num_pos_feats / 2) + 1))) ∧
          out.data b (cfg.num_pos_feats + i) p q r =
            (if i < cfg.num_pos_feats / 2 then
              Real.sin (PositionEmbeddingSine.y_embed
                  (maskOpt.getD denseDefaultMask) b p q r /
                dimT cfg.temperature cfg.num_pos_feats (2 * i))
            else
              Real.cos (PositionEmbeddingSine.y_embed
                  (maskOpt.getD denseDefaultMask) b p q r /
                dimT cfg.temperature cfg.num_pos_feats
                  (2 * (i - cfg.num_pos_feats / 2) + 1))) ∧
          out.data b (2 * cfg.num_pos_feats + i) p q r =
            (if i < cfg.num_pos_feats / 2 then
              Real.sin (PositionEmbeddingSine.z_embed
                  (maskOpt.getD denseDefaultMask) b p q r /
                dimT cfg.temperature cfg.num_pos_feats (2 * i))
            else
              Real.cos (PositionEmbeddingSine.z_embed
                  (maskOpt.getD denseDefaultMask) b p q r /
                dimT cfg.temperature cfg.num_pos_feats
                  (2 * (i - cfg.num_pos_feats / 2) + 1)))) := by
  constructor
  · intro coords n c hc
    refine ⟨coords.map (sparseRow cfg), by
      rw [sparseForward_eq, if_pos (by omega)], ?_⟩
    intro i hi
    have hout : (coords.map (sparseRow cfg))[n]? = some (sparseRow cfg c) := by
      rw [List.getElem?_map, hc]
      rfl
    rw [hout]
    have hx := sparseRow_getElem? cfg c i hE (by omega)
    have hy := sparseRow_getElem? cfg c (cfg.num_pos_feats + i) hE (by omega)
    have hz := sparseRow_getElem? cfg c (2 * cfg.num_pos_feats + i) hE
      (by omega)
    have hyc1 : ¬(cfg.num_pos_feats + i < cfg.num_pos_feats) := by omega
    have hyc2 : cfg.num_pos_feats + i < 2 * cfg.num_pos_feats := by omega
    have hzc1 : ¬(2 * cfg.num_pos_feats + i < cfg.num_pos_feats) := by omega
    have hzc2 : ¬(2 * cfg.num_pos_feats + i < 2 * cfg.num_pos_feats) := by
      omega
    simp only [hi, if_true, hyc1, hyc2, hzc1, hzc2, if_false,
      Nat.add_sub_cancel_left, sparseEmbedVal, hn, Bool.false_eq_true] at hx hy hz
    refine ⟨?_, ?_, ?_⟩ <;>
      simp only [Option.some_bind, hx, hy, hz]
  · intro B C X Y Z maskOpt
    rw [denseForward_eq cfg B C X Y Z maskOpt hE]
    refine ⟨_, rfl, ?_⟩
    intro b p q r i hi
    have hyc1 : ¬(cfg.num_pos_feats + i < cfg.num_pos_feats) := by omega
    have hyc2 : cfg.num_pos_feats + i < 2 * cfg.num_pos_feats := by omega
    have hzc1 : ¬(2 * cfg.num_pos_feats + i < cfg.num_pos_feats) := by omega
    have hzc2 : ¬(2 * cfg.num_pos_feats + i < 2 * cfg.num_pos_feats) := by
      omega
    refine ⟨?_, ?_, ?_⟩ <;>
      simp only [hi, if_true, hyc1, hyc2, hzc1, hzc2, if_false,
        Nat.add_sub_cancel_left, denseAxisFeature, denseEmbedX, denseEmbedY,
        denseEmbedZ, hn, Bool.false_eq_true]

theorem claim1_witness :
    ((PositionEmbeddingSineSparse.forward ⟨2, 10000, false, 2 * Real.pi⟩
        [(1, 2, 3)]).bind fun o => (o[0]?).bind fun r => r[0]?) =
      some (Real.sin (1 / dimT 10000 2 0)) := by
  obtain ⟨out, hout, hentry⟩ :=
    (claim1_amended ⟨2, 10000, false, 2 * Real.pi⟩ rfl (by norm_num)).1
      [(1, 2, 3)] 0 (1, 2, 3) rfl
  rw [hout]
  have h := (hentry 0 (by norm_num)).1
  simp only [Option.some_bind] at h ⊢
  rw [h]
  norm_num

/-- C2: for the sparse encoder with `normalize = True`, each coordinate `c`
of each axis is replaced, independently per element, by
`c / (c + 1e-6) * scale` before the division by the frequency table — the
sine-block entries of the output are the sines of exactly these
self-normalized values divided by the even bands, with no per-axis or
batch maximum involved. -/
theorem claim2_sparse_normalize (cfg : Config) (hn : cfg.normalize = true)
    (hE : cfg.num_pos_feats % 2 = 0) (coords : List (ℝ × ℝ × ℝ)) (n : ℕ)
    (c : ℝ × ℝ × ℝ) (hc : coords[n]? = some c) :
    ∃ out, PositionEmbeddingSineSparse.forward cfg coords = some out ∧
      ∀ i, i < cfg.num_pos_feats / 2 →
        ((out[n]?).bind fun r => r[i]?) =
          some (Real.sin (c.1 / (c.1 + 1e-6) * cfg.scale /
            dimT cfg.temperature cfg.num_pos_feats (2 * i))) ∧
        ((out[n]?).bind fun r => r[cfg.num_pos_feats + i]?) =
          some (Real.sin (c.2.1 / (c.2.1 + 1e-6) * cfg.scale /
            dimT cfg.temperature cfg.num_pos_feats (2 * i))) ∧
        ((out[n]?).bind fun r => r[2 * cfg.num_pos_feats + i]?) =
          some (Real.sin (c.2.2 / (c.2.2 + 1e-6) * cfg.scale /
            dimT cfg.temperature cfg.num_pos_feats (2 * i))) := by
  refine ⟨coords.map (sparseRow cfg), by
    rw [sparseForward_eq, if_pos (by omega)], ?_⟩
  intro i hi
  have hiF : i < cfg.num_pos_feats := by omega
  have hout : (coords.map (sparseRow cfg))[n]? = some (sparseRow cfg c) := by
    rw [List.getElem?_map, hc]
    rfl
  rw [hout]
  have hx := sparseRow_getElem? cfg c i hE (by omega)
  have hy := sparseRow_getElem? cfg c (cfg.num_pos_feats + i) hE (by omega)
  have hz := sparseRow_getElem? cfg c (2 * cfg.num_pos_feats + i) hE
    (by omega)
  have hyc1 : ¬(cfg.num_pos_feats + i < cfg.num_pos_feats) := by omega
  have hyc2 : cfg.num_pos_feats + i < 2 * cfg.num_pos_feats := by omega
  have hzc1 : ¬(2 * cfg.num_pos_feats + i < cfg.num_pos_feats) := by omega
  have hzc2 : ¬(2 * cfg.num_pos_feats + i < 2 * cfg.num_pos_feats) := by
    omega
  simp only [hiF, hi, if_true, hyc1, hyc2, hzc1, hzc2, if_false,
    Nat.add_sub_cancel_left, sparseEmbedVal, hn] at hx hy hz
  exact ⟨by simp only [Option.some_bind, hx],
    by simp only [Option.some_bind, hy],
    by simp only [Option.some_bind, hz]⟩

theorem claim2_witness :
    ((PositionEmbeddingSineSparse.forward ⟨2, 10000, true, 2 * Real.pi⟩
        [(1, 2, 3)]).bind fun o => (o[0]?).bind fun r => r[0]?) =
      some (Real.sin ((1 : ℝ) / (1 + 1e-6) * (2 * Real.pi) /
        dimT 10000 2 0)) := by
  obtain ⟨out, hout, hentry⟩ :=
    claim2_sparse_normalize ⟨2, 10000, true, 2 * Real.pi⟩ rfl (by norm_num)
      [(1, 2, 3)] 0 (1, 2, 3) rfl
  rw [hout]
  have h := (hentry 0 (by norm_num)).1
  simp only [Option.some_bind] at h ⊢
  rw [h]

/-- C5 counterexample: with an all-true mask (everything padding), the
normalized dense X coordinate at the first voxel is `0 / (0 + 1e-6) * scale
= 0`, which does not lie in `(0, scale]` — refuting "for every mask the
ranks are mapped into `(0, scale]`". -/
theorem claim5_counterexample :
    PositionEmbeddingSine.x_embedNorm ⟨2, 10000, true, 2 * Real.pi⟩ 1
        (fun _ _ _ _ => true) 0 0 0 0 ∉ Set.Ioc (0 : ℝ) (2 * Real.pi) := by
  have h0 : PositionEmbeddingSine.x_embedNorm ⟨2, 10000, true, 2 * Real.pi⟩ 1
      (fun _ _ _ _ => true) 0 0 0 0 = 0 := by
    simp [PositionEmbeddingSine.x_embedNorm, PositionEmbeddingSine.x_embed,
      notMask, boolToR]
  rw [h0]
  simp [Set.mem_Ioc]

theorem x_embed_nonneg (mask : Mask4) (b i j k : ℕ) :
    0 ≤ PositionEmbeddingSine.x_embed mask b i j k :=
  Finset.sum_nonneg fun _ _ => boolToR_nonneg _

theorem y_embed_nonneg (mask : Mask4) (b i j k : ℕ) :
    0 ≤ PositionEmbeddingSine.y_embed mask b i j k :=
  Finset.sum_nonneg fun _ _ => boolToR_nonneg _

theorem z_embed_nonneg (mask : Mask4) (b i j k : ℕ) :
    0 ≤ PositionEmbeddingSine.z_embed mask b i j k :=
  Finset.sum_nonneg fun _ _ => boolToR_nonneg _

theorem x_embed_mono (mask : Mask4) (b j k : ℕ) {i i' : ℕ} (h : i ≤ i') :
    PositionEmbeddingSine.x_embed mask b i j k ≤
      PositionEmbeddingSine.x_embed mask b i' j k :=
  Finset.sum_le_sum_of_subset_of_nonneg
    (Finset.range_subset.mpr (by omega)) fun _ _ _ => boolToR_nonneg _

theorem y_embed_mono (mask : Mask4) (b i k : ℕ) {j j' : ℕ} (h : j ≤ j') :
    PositionEmbeddingSine.y_embed mask b i j k ≤
      PositionEmbeddingSine.y_embed mask b i j' k :=
  Finset.sum_le_sum_of_subset_of_nonneg
    (Finset.range_subset.mpr (by omega)) fun _ _ _ => boolToR_nonneg _

theorem z_embed_mono (mask : Mask4) (b i j : ℕ) {k k' : ℕ} (h : k ≤ k') :
    PositionEmbeddingSine.z_embed mask b i j k ≤
      PositionEmbeddingSine.z_embed mask b i j k' :=
  Finset.sum_le_sum_of_subset_of_nonneg
    (Finset.range_subset.mpr (by omega)) fun _ _ _ => boolToR_nonneg _

theorem normVal_mem_Ico {c L s : ℝ} (hc : 0 ≤ c) (hcL : c ≤ L) (hs : 0 < s) :
    c / (L + 1e-6) * s ∈ Set.Ico (0 : ℝ) s := by
  have hL : (0 : ℝ) ≤ L := le_trans hc hcL
  have hden : (0 : ℝ) < L + 1e-6 := by
    have : (0 : ℝ) < (1e-6 : ℝ) := by norm_num
    linarith
  constructor
  · exact mul_nonneg (div_nonneg hc hden.le) hs.le
  · have h1 : c / (L + 1e-6) < 1 := (div_lt_one hden).mpr (by linarith)
    calc c / (L + 1e-6) * s < 1 * s := mul_lt_mul_of_pos_right h1 hs
      _ = s := one_mul s

/-- C5 amended: with `normalize` set and a positive scale, each cumulative
coordinate volume is divided by its last slice along its own axis (which is
its maximum along that axis) plus `1e-6` and multiplied by `scale`, and the
resulting values lie in `[0, scale)` — the lower end `0` is attained under
full masking, and `scale` itself is never attained. -/
theorem claim5_amended (cfg : Config) (mask : Mask4) (X Y Z b i j k : ℕ)
    (hs : 0 < cfg.scale) (hi : i < X) (hj : j < Y) (hk : k < Z) :
    (PositionEmbeddingSine.x_embedNorm cfg X mask b i j k =
        PositionEmbeddingSine.x_embed mask b i j k /
          (PositionEmbeddingSine.x_embed mask b (X - 1) j k + 1e-6) *
          cfg.scale ∧
      PositionEmbeddingSine.x_embed mask b i j k ≤
        PositionEmbeddingSine.x_embed mask b (X - 1) j k ∧
      PositionEmbeddingSine.x_embedNorm cfg X mask b i j k ∈
        Set.Ico (0 : ℝ) cfg.scale) ∧
    (PositionEmbeddingSine.y_embedNorm cfg Y mask b i j k =
        PositionEmbeddingSine.y_embed mask b i j k /
          (PositionEmbeddingSine.y_embed mask b i (Y - 1) k + 1e-6) *
          cfg.scale ∧
      PositionEmbeddingSine.y_embed mask b i j k ≤
        PositionEmbeddingSine.y_embed mask b i (Y - 1) k ∧
      PositionEmbeddingSine.y_embedNorm cfg Y mask b i j k ∈
        Set.Ico (0 : ℝ) cfg.scale) ∧
    (PositionEmbeddingSine.z_embedNorm cfg Z mask b i j k =
        PositionEmbeddingSine.z_embed mask b i j k /
          (PositionEmbeddingSine.z_embed mask b i j (Z - 1) + 1e-6) *
          cfg.scale ∧
      PositionEmbeddingSine.z_embed mask b i j k ≤
        PositionEmbeddingSine.z_embed mask b i j (Z - 1) ∧
      PositionEmbeddingSine.z_embedNorm cfg Z mask b i j k ∈
        Set.Ico (0 : ℝ) cfg.scale) := by
  have hxm := x_embed_mono mask b j k (show i ≤ X - 1 by omega)
  have hym := y_embed_mono mask b i k (show j ≤ Y - 1 by omega)
  have hzm := z_embed_mono mask b i j (show k ≤ Z - 1 by omega)
  exact ⟨⟨rfl, hxm, normVal_mem_Ico (x_embed_nonneg mask b i j k) hxm hs⟩,
    ⟨rfl, hym, normVal_mem_Ico (y_embed_nonneg mask b i j k) hym hs⟩,
    ⟨rfl, hzm, normVal_mem_Ico (z_embed_nonneg mask b i j k) hzm hs⟩⟩

theorem claim5_witness :
    PositionEmbeddingSine.x_embedNorm ⟨2, 10000, true, 2 * Real.pi⟩ 1
        denseDefaultMask 0 0 0 0 ∈ Set.Ico (0 : ℝ) (2 * Real.pi) :=
  ((claim5_amended ⟨2, 10000, true, 2 * Real.pi⟩ denseDefaultMask 1 1 1 0 0 0 0
      (mul_pos two_pos Real.pi_pos) (by norm_num) (by norm_num)
      (by norm_num)).1).2.2

end PaSCo
